import Mathlib

/-!
Verification of the RAG course chatbot engine (`backend/rag_engine.py`
together with the `/api/query` handler of `backend/app.py`).

Python strings are modelled as `List Char`, Python `str.split()` as
splitting on whitespace with empty pieces discarded, Python float scores
as exact rationals, and the in-memory `COURSE_DATA` dict as an
association list in insertion order.
-/

abbrev Str := List Char

def isSpace (c : Char) : Bool := c.isWhitespace

/-- Python `str.split()`: split on whitespace, discarding empty pieces. -/
def pySplit (s : Str) : List Str :=
  (s.splitOnP isSpace).filter (fun w => !w.isEmpty)

/-- Python `str.strip()`: remove leading and trailing whitespace. -/
def pyStrip (s : Str) : Str :=
  List.rdropWhile isSpace (List.dropWhile isSpace s)

/-- Python `str.lower()`, character-wise. -/
def lowerStr (s : Str) : Str := s.map Char.toLower

/-- Python `sep.join(parts)`. -/
def joinWith (sep : Str) : List Str → Str
  | [] => []
  | [w] => w
  | w :: ws => w ++ sep ++ joinWith sep ws

structure CourseChunk where
  course_id : Str
  title : Str
  content : Str
  chunk_index : Nat
deriving DecidableEq, Repr

/-- The chunking loop of `load_courses` (rag_engine.py lines 26-46):
greedy word packing into chunks of at most ~200 characters.  `buf` is the
accumulating `chunk_text` (each appended word is followed by one space),
`idx` the running `chunk_idx`, `acc` the chunks appended so far. -/
def chunkLoop (cid t : Str) : List Str → Str → Nat → List CourseChunk → List CourseChunk
  | [], buf, idx, acc =>
      if pyStrip buf ≠ [] then acc ++ [⟨cid, t, pyStrip buf, idx⟩] else acc
  | w :: ws, buf, idx, acc =>
      if buf.length + w.length + 1 > 200 then
        chunkLoop cid t ws (w ++ [' ']) (idx + 1) (acc ++ [⟨cid, t, pyStrip buf, idx⟩])
      else
        chunkLoop cid t ws (buf ++ w ++ [' ']) idx acc

/-- Chunking of the text of one course, as done by `load_courses`. -/
def chunkCourse (cid t content : Str) : List CourseChunk :=
  chunkLoop cid t (pySplit content) [] 0 []

/-- The course store (`COURSE_DATA`): a dict modelled as an association
list in insertion order. -/
abbrev Store := List (Str × List CourseChunk)

/-- Python dict assignment `d[k] = v`: replace in place if the key exists
(keeping its original position), otherwise append at the end. -/
def dictInsert (k : Str) (v : List CourseChunk) : Store → Store
  | [] => [(k, v)]
  | (k2, v2) :: rest =>
      if k2 = k then (k2, v) :: rest else (k2, v2) :: dictInsert k v rest

structure CourseInput where
  id : Str
  title : Str
  content : Str

/-- `load_courses` (rag_engine.py lines 18-47): clears the store, then for
each record stores the chunks of its content under its id. -/
def load_courses (_prior : Store) (courses : List CourseInput) : Store :=
  courses.foldl
    (fun st c => dictInsert c.id (chunkCourse c.id c.title c.content) st) []

/-- Lowercased whitespace-token set: `set(s.lower().split())`. -/
def termSet (s : Str) : Finset Str := (pySplit (lowerStr s)).toFinset

/-- `overlap = len(query_terms & chunk_terms)`. -/
def overlapOf (q c : Str) : Nat := (termSet q ∩ termSet c).card

/-- `score = overlap / max(len(query_terms), 1)`: the `max` is over
integers as in the source, the division exact rational. -/
def scoreOf (q c : Str) : ℚ :=
  (overlapOf q c : ℚ) / ((max (termSet q).card 1 : ℕ) : ℚ)

/-- The scored pair list built by `retrieve` (rag_engine.py lines 56-65),
in store enumeration order: chunks with zero overlap are skipped. -/
def scoredList (store : Store) (q : Str) : List (ℚ × CourseChunk) :=
  ((store.map Prod.snd).flatten).filterMap (fun c =>
    if 0 < overlapOf q c.content then some (scoreOf q c.content, c) else none)

/-- Insert before the first entry whose score is not greater, so that
entries with equal score keep the earlier-enumerated one first. -/
def insertDesc (p : ℚ × CourseChunk) :
    List (ℚ × CourseChunk) → List (ℚ × CourseChunk)
  | [] => [p]
  | q :: rest => if p.1 < q.1 then q :: insertDesc p rest else p :: q :: rest

/-- Model of `scored.sort(key=lambda x: x[0], reverse=True)`: the unique
permutation that is sorted by score descending and stable (the CPython
list sort is guaranteed stable, and `reverse=True` does not reorder
ties). -/
def sortDesc : List (ℚ × CourseChunk) → List (ℚ × CourseChunk)
  | [] => []
  | p :: rest => insertDesc p (sortDesc rest)

/-- Python slice `l[:k]` for an `int` k: first `k` elements when `k ≥ 0`,
all but the last `-k` elements when `k < 0`. -/
def pyTakeSlice (k : Int) (l : List α) : List α :=
  if 0 ≤ k then l.take k.toNat else l.take (l.length - (-k).toNat)

/-- `retrieve` (rag_engine.py lines 50-68). -/
def retrieve (store : Store) (q : Str) (top_k : Int) : List CourseChunk :=
  (pyTakeSlice top_k (sortDesc (scoredList store q))).map Prod.snd

/-- The fallback answer of `generate_response`. -/
def fallbackMsg : Str :=
  "I couldn\x27t find relevant course material for your question.".data

/-- One context line `[title]: content`. -/
def chunkLine (c : CourseChunk) : Str :=
  "[".data ++ c.title ++ "]: ".data ++ c.content

/-- `generate_response` (rag_engine.py lines 71-87). -/
def generate_response (q : Str) (chunks : List CourseChunk) : Str :=
  if chunks = [] then fallbackMsg
  else
    "Based on the course materials:\n\n".data
      ++ joinWith "\n".data (chunks.map chunkLine)
      ++ "\n\nThis information is relevant to your query: \"".data
      ++ q ++ "\"".data

/-- One `{id, title, num_chunks}` record of `list_courses`. -/
def courseEntry (cid : Str) (chs : List CourseChunk) : Str × Str × Nat :=
  (cid, (match chs with | [] => cid | c :: _ => c.title), chs.length)

/-- The loop of `list_courses` (rag_engine.py lines 92-101), with its
`seen` set modelled as a list. -/
def listCoursesAux : Store → List Str → List (Str × Str × Nat)
  | [], _ => []
  | (cid, chs) :: rest, seen =>
      if cid ∈ seen then listCoursesAux rest seen
      else courseEntry cid chs :: listCoursesAux rest (cid :: seen)

/-- `list_courses` (rag_engine.py lines 90-102). -/
def list_courses (store : Store) : List (Str × Str × Nat) :=
  listCoursesAux store []

/-- The `/api/query` handler (app.py lines 31-41); `none` models the 422
validation failure raised for a blank question. -/
def queryOp (store : Store) (question : Str) (top_k : Int) :
    Option (Str × List (Str × Str × Nat)) :=
  if pyStrip question = [] then none
  else
    some (generate_response question (retrieve store question top_k),
          (retrieve store question top_k).map
            (fun c => (c.course_id, c.title, c.chunk_index)))

/-! ### Properties of `pySplit` and `pyStrip` -/

/-- A whitespace-split piece: non-empty and free of whitespace. -/
def cleanWord (w : Str) : Prop := w ≠ [] ∧ ∀ c ∈ w, isSpace c = false

theorem pySplit_nil : pySplit [] = [] := rfl

theorem pySplit_cons_of_space {c : Char} (h : isSpace c = true) (s : Str) :
    pySplit (c :: s) = pySplit s := by
  simp [pySplit, List.splitOnP_cons, h]

theorem splitOnP_append_sep {c : Char} (h : isSpace c = true) (a b : Str) :
    (a ++ c :: b).splitOnP isSpace = a.splitOnP isSpace ++ b.splitOnP isSpace := by
  induction a with
  | nil => simp [List.splitOnP_cons, h]
  | cons x a ih =>
    by_cases hx : isSpace x = true
    · simp [List.splitOnP_cons, hx, ih]
    · simp only [List.cons_append, List.splitOnP_cons, hx, Bool.false_eq_true,
        if_false, ih]
      cases hsa : a.splitOnP isSpace with
      | nil => exact absurd hsa (List.splitOnP_ne_nil _ _)
      | cons hd tl => simp [List.modifyHead]

theorem pySplit_append_sep {c : Char} (h : isSpace c = true) (a b : Str) :
    pySplit (a ++ c :: b) = pySplit a ++ pySplit b := by
  simp [pySplit, splitOnP_append_sep h, List.filter_append]

theorem pySplit_clean {w : Str} (hw : cleanWord w) : pySplit w = [w] := by
  obtain ⟨hne, hcl⟩ := hw
  rw [pySplit, List.splitOnP_eq_single]
  · simp [List.filter_cons, List.isEmpty_iff, hne]
  · intro x hx; simp [hcl x hx]

theorem pySplit_append_spaces {sp : Str} (h : ∀ c ∈ sp, isSpace c = true) (a : Str) :
    pySplit (a ++ sp) = pySplit a := by
  induction sp generalizing a with
  | nil => simp
  | cons c sp ih =>
    have hstep : a ++ c :: sp = (a ++ [c]) ++ sp := by simp
    rw [hstep, ih (fun x hx => h x (List.mem_cons_of_mem _ hx))]
    have h2 := pySplit_append_sep (h c (List.mem_cons_self _ _)) a ([] : Str)
    simpa [pySplit_nil] using h2

theorem splitOnP_pieces_clean {s : Str} :
    ∀ w ∈ s.splitOnP isSpace, ∀ c ∈ w, isSpace c = false := by
  induction s with
  | nil =>
    intro w hw c hc
    simp only [List.splitOnP_nil, List.mem_singleton] at hw
    subst hw; simp at hc
  | cons x s ih =>
    intro w hw c hc
    by_cases hx : isSpace x = true
    · rw [List.splitOnP_cons, if_pos hx] at hw
      rcases List.mem_cons.mp hw with h1 | h1
      · subst h1; simp at hc
      · exact ih w h1 c hc
    · rw [List.splitOnP_cons, if_neg hx] at hw
      cases hsa : s.splitOnP isSpace with
      | nil => exact absurd hsa (List.splitOnP_ne_nil _ _)
      | cons hd tl =>
        rw [hsa, List.modifyHead] at hw
        rcases List.mem_cons.mp hw with h1 | h1
        · subst h1
          rcases List.mem_cons.mp hc with h2 | h2
          · subst h2; simpa using hx
          · exact ih hd (hsa ▸ List.mem_cons_self _ _) c h2
        · exact ih w (hsa ▸ List.mem_cons_of_mem _ h1) c hc

theorem mem_pySplit_clean {s : Str} : ∀ w ∈ pySplit s, cleanWord w := by
  intro w hw
  have h1 := List.mem_filter.mp hw
  refine ⟨?_, fun c hc => splitOnP_pieces_clean w h1.1 c hc⟩
  simpa [List.isEmpty_iff] using h1.2

theorem pySplit_cons_ne_nil {c : Char} (hc : isSpace c = false) (s : Str) :
    pySplit (c :: s) ≠ [] := by
  rw [pySplit, List.splitOnP_cons, if_neg (by simp [hc])]
  cases hsa : s.splitOnP isSpace with
  | nil => exact absurd hsa (List.splitOnP_ne_nil _ _)
  | cons hd tl => simp [List.modifyHead, List.filter_cons]

theorem pySplit_eq_nil_iff {s : Str} :
    pySplit s = [] ↔ ∀ c ∈ s, isSpace c = true := by
  induction s with
  | nil => simp [pySplit_nil]
  | cons c s ih =>
    by_cases hc : isSpace c = true
    · rw [pySplit_cons_of_space hc]; simp [hc, ih]
    · constructor
      · intro h
        exact absurd h (pySplit_cons_ne_nil (by simpa using hc) s)
      · intro h
        exact absurd (h c (List.mem_cons_self _ _)) (by simpa using hc)

theorem pyStrip_eq_nil_iff {s : Str} :
    pyStrip s = [] ↔ ∀ c ∈ s, isSpace c = true := by
  rw [pyStrip, List.rdropWhile_eq_nil_iff]
  constructor
  · intro h
    induction s with
    | nil => simp
    | cons c s ih =>
      by_cases hc : isSpace c = true
      · rw [List.dropWhile_cons, if_pos hc] at h
        intro x hx
        rcases List.mem_cons.mp hx with h1 | h1
        · subst h1; exact hc
        · exact ih h x h1
      · rw [List.dropWhile_cons, if_neg hc] at h
        exact absurd (h c (List.mem_cons_self _ _)) hc
  · intro h x hx
    exact h x ((List.dropWhile_suffix isSpace).subset hx)

theorem pySplit_dropWhile (s : Str) :
    pySplit (List.dropWhile isSpace s) = pySplit s := by
  induction s with
  | nil => rfl
  | cons c s ih =>
    by_cases hc : isSpace c = true
    · rw [List.dropWhile_cons, if_pos hc, ih, pySplit_cons_of_space hc]
    · rw [List.dropWhile_cons, if_neg hc]

theorem rdropWhile_append_rtakeWhile_eq (p : Char → Bool) (l : Str) :
    List.rdropWhile p l ++ List.rtakeWhile p l = l := by
  rw [List.rdropWhile, List.rtakeWhile, ← List.reverse_append,
    List.takeWhile_append_dropWhile, List.reverse_reverse]

theorem pySplit_rdropWhile (s : Str) :
    pySplit (List.rdropWhile isSpace s) = pySplit s := by
  conv_rhs => rw [← rdropWhile_append_rtakeWhile_eq isSpace s]
  exact (pySplit_append_spaces (fun c hc => List.mem_rtakeWhile_imp hc) _).symm

theorem pySplit_pyStrip (s : Str) : pySplit (pyStrip s) = pySplit s := by
  rw [pyStrip, pySplit_rdropWhile, pySplit_dropWhile]

theorem pyStrip_eq_nil_iff_split {s : Str} : pyStrip s = [] ↔ pySplit s = [] := by
  rw [pyStrip_eq_nil_iff, pySplit_eq_nil_iff]

/-! ### Properties of `joinWith` and trailing-space buffers -/

/-- The shape of the chunker buffer: each accumulated word followed by
one space. -/
def joinTrail (ws : List Str) : Str := (ws.map (fun w => w ++ [' '])).flatten

theorem joinTrail_nil : joinTrail [] = [] := rfl

theorem joinTrail_cons (w : Str) (ws : List Str) :
    joinTrail (w :: ws) = w ++ ' ' :: joinTrail ws := by
  simp [joinTrail]

theorem joinTrail_append_one (ws : List Str) (w : Str) :
    joinTrail (ws ++ [w]) = joinTrail ws ++ w ++ [' '] := by
  simp [joinTrail]

theorem joinWith_cons₂ (sep w x : Str) (ws : List Str) :
    joinWith sep (w :: x :: ws) = w ++ sep ++ joinWith sep (x :: ws) := rfl

theorem joinWith_ne_nil {sep w : Str} {ws : List Str} (hw : w ≠ []) :
    joinWith sep (w :: ws) ≠ [] := by
  cases ws with
  | nil => exact hw
  | cons x ws => simp [joinWith_cons₂, hw]

theorem joinTrail_eq_joinWith {ws : List Str} (h : ws ≠ []) :
    joinTrail ws = joinWith [' '] ws ++ [' '] := by
  induction ws with
  | nil => exact absurd rfl h
  | cons w ws ih =>
    cases ws with
    | nil => simp [joinTrail, joinWith]
    | cons x ws =>
      rw [joinTrail_cons, ih (by simp), joinWith_cons₂]
      simp

theorem pySplit_joinWith_flatten (cs : List Str) :
    pySplit (joinWith [' '] cs) = (cs.map pySplit).flatten := by
  induction cs with
  | nil => simp [joinWith, pySplit_nil]
  | cons c cs ih =>
    cases cs with
    | nil => simp [joinWith]
    | cons x cs =>
      rw [joinWith_cons₂, List.append_assoc, List.singleton_append,
        pySplit_append_sep (by decide), ih]
      simp

theorem pySplit_joinWith_clean {ws : List Str} (h : ∀ w ∈ ws, cleanWord w) :
    pySplit (joinWith [' '] ws) = ws := by
  rw [pySplit_joinWith_flatten]
  induction ws with
  | nil => rfl
  | cons w ws ih =>
    simp only [List.map_cons, List.flatten_cons,
      pySplit_clean (h w (List.mem_cons_self _ _))]
    rw [ih (fun x hx => h x (List.mem_cons_of_mem _ hx))]
    rfl

theorem pySplit_joinTrail {ws : List Str} (h : ∀ w ∈ ws, cleanWord w) :
    pySplit (joinTrail ws) = ws := by
  cases hne : ws with
  | nil => simp [joinTrail_nil, pySplit_nil]
  | cons w ws2 =>
    rw [← hne, joinTrail_eq_joinWith (by simp [hne]),
      pySplit_append_spaces (show ∀ c ∈ ([' '] : Str), isSpace c = true by decide),
      pySplit_joinWith_clean h]

theorem rdropWhile_append_of_ne_nil {p : Char → Bool} {b : Str}
    (hb : List.rdropWhile p b ≠ []) (a : Str) :
    List.rdropWhile p (a ++ b) = a ++ List.rdropWhile p b := by
  have hrb : List.dropWhile p b.reverse ≠ [] := by
    intro h
    apply hb
    rw [List.rdropWhile, h, List.reverse_nil]
  rw [List.rdropWhile, List.reverse_append, List.dropWhile_append]
  rw [if_neg (by simpa [List.isEmpty_iff] using hrb)]
  rw [List.reverse_append, List.reverse_reverse, List.rdropWhile]

theorem rdropWhile_clean {w : Str} (hw : cleanWord w) :
    List.rdropWhile isSpace w = w := by
  rw [List.rdropWhile_eq_self_iff]
  intro hl
  simp [hw.2 _ (List.getLast_mem hl)]

theorem rdropWhile_joinWith_clean {ws : List Str} (h : ∀ w ∈ ws, cleanWord w) :
    List.rdropWhile isSpace (joinWith [' '] ws) = joinWith [' '] ws := by
  induction ws with
  | nil => simp [joinWith, List.rdropWhile_nil]
  | cons w ws ih =>
    cases ws with
    | nil => exact rdropWhile_clean (h w (List.mem_cons_self _ _))
    | cons x ws2 =>
      have hx : cleanWord x := h x (by simp)
      have hihs : ∀ v ∈ x :: ws2, cleanWord v :=
        fun v hv => h v (List.mem_cons_of_mem _ hv)
      have hb : List.rdropWhile isSpace (joinWith [' '] (x :: ws2)) ≠ [] := by
        rw [ih hihs]
        exact joinWith_ne_nil hx.1
      rw [joinWith_cons₂, rdropWhile_append_of_ne_nil hb, ih hihs]

theorem dropWhile_joinTrail_clean {w : Str} {ws : List Str} (hw : cleanWord w) :
    List.dropWhile isSpace (joinTrail (w :: ws)) = joinTrail (w :: ws) := by
  rw [joinTrail_cons]
  cases hc : w with
  | nil => exact absurd hc hw.1
  | cons c w2 =>
    have : isSpace c = false := hw.2 c (by simp [hc])
    simp [List.dropWhile_cons, this]

theorem pyStrip_joinTrail {ws : List Str} (hne : ws ≠ [])
    (h : ∀ w ∈ ws, cleanWord w) :
    pyStrip (joinTrail ws) = joinWith [' '] ws := by
  cases ws with
  | nil => exact absurd rfl hne
  | cons w ws2 =>
    rw [pyStrip, dropWhile_joinTrail_clean (h w (List.mem_cons_self _ _)),
      joinTrail_eq_joinWith (by simp), List.rdropWhile_concat_pos _ _ _ (by decide),
      rdropWhile_joinWith_clean h]

theorem joinTrail_length_eq {ws : List Str} (hne : ws ≠ []) :
    (joinTrail ws).length = (joinWith [' '] ws).length + 1 := by
  rw [joinTrail_eq_joinWith hne]
  simp

/-! ### Properties of the chunking loop -/

theorem pyStrip_nil : pyStrip [] = [] := rfl

theorem chunkLoop_append (cid t : Str) :
    ∀ (ws : List Str) (buf : Str) (idx : Nat) (a b : List CourseChunk),
      chunkLoop cid t ws buf idx (a ++ b) = a ++ chunkLoop cid t ws buf idx b := by
  intro ws
  induction ws with
  | nil =>
    intro buf idx a b
    simp only [chunkLoop]
    by_cases h : pyStrip buf = [] <;> simp [h]
  | cons w ws ih =>
    intro buf idx a b
    simp only [chunkLoop]
    by_cases h : buf.length + w.length + 1 > 200
    · rw [if_pos h, if_pos h, List.append_assoc, ih]
    · rw [if_neg h, if_neg h, ih]

theorem chunkLoop_acc (cid t : Str) (ws : List Str) (buf : Str) (idx : Nat)
    (acc : List CourseChunk) :
    chunkLoop cid t ws buf idx acc = acc ++ chunkLoop cid t ws buf idx [] := by
  have h := chunkLoop_append cid t ws buf idx acc []
  simpa using h

theorem chunkLoop_flatten (cid t : Str) :
    ∀ (ws cur : List Str) (idx : Nat) (acc : List CourseChunk),
      (∀ w ∈ ws, cleanWord w) → (∀ w ∈ cur, cleanWord w) →
      ((chunkLoop cid t ws (joinTrail cur) idx acc).map
          (fun c => pySplit c.content)).flatten
        = (acc.map (fun c => pySplit c.content)).flatten ++ cur ++ ws := by
  intro ws
  induction ws with
  | nil =>
    intro cur idx acc _ hcur
    simp only [chunkLoop]
    cases cur with
    | nil =>
      simp [joinTrail_nil, pyStrip_nil]
    | cons c cur2 =>
      have hne : pyStrip (joinTrail (c :: cur2)) ≠ [] := by
        rw [pyStrip_joinTrail (by simp) hcur]
        exact joinWith_ne_nil (hcur c (List.mem_cons_self _ _)).1
      rw [if_pos hne]
      simp only [List.map_append, List.flatten_append, List.map_cons,
        List.map_nil, List.flatten_cons, List.flatten_nil]
      rw [pySplit_pyStrip, pySplit_joinTrail hcur]
      simp
  | cons w ws ih =>
    intro cur idx acc hws hcur
    have hw : cleanWord w := hws w (List.mem_cons_self _ _)
    have hws2 : ∀ v ∈ ws, cleanWord v := fun v hv => hws v (List.mem_cons_of_mem _ hv)
    simp only [chunkLoop]
    by_cases h : (joinTrail cur).length + w.length + 1 > 200
    · rw [if_pos h]
      have hbuf : w ++ [' '] = joinTrail [w] := by simp [joinTrail]
      have hw1 : ∀ v ∈ ([w] : List Str), cleanWord v := by
        intro v hv; simp at hv; subst hv; exact hw
      have hstep := ih [w] (idx + 1)
        (acc ++ [⟨cid, t, pyStrip (joinTrail cur), idx⟩]) hws2 hw1
      rw [hbuf, hstep]
      simp only [List.map_append, List.flatten_append, List.map_cons,
        List.map_nil, List.flatten_cons, List.flatten_nil]
      rw [pySplit_pyStrip, pySplit_joinTrail hcur]
      simp
    · rw [if_neg h]
      have hbuf : joinTrail cur ++ w ++ [' '] = joinTrail (cur ++ [w]) := by
        rw [joinTrail_append_one]
      have hcur2 : ∀ v ∈ cur ++ [w], cleanWord v := by
        intro v hv
        rcases List.mem_append.mp hv with h1 | h1
        · exact hcur v h1
        · simp at h1; subst h1; exact hw
      have hstep := ih (cur ++ [w]) idx acc hws2 hcur2
      rw [hbuf, hstep]
      simp

theorem chunkLoop_idx (cid t : Str) :
    ∀ (ws : List Str) (buf : Str) (idx : Nat) (acc : List CourseChunk),
      ∃ n, (chunkLoop cid t ws buf idx acc).map (fun c => c.chunk_index)
        = acc.map (fun c => c.chunk_index) ++ List.range' idx n := by
  intro ws
  induction ws with
  | nil =>
    intro buf idx acc
    simp only [chunkLoop]
    by_cases h : pyStrip buf = []
    · exact ⟨0, by simp [h]⟩
    · refine ⟨1, ?_⟩
      rw [if_pos h]
      simp
  | cons w ws ih =>
    intro buf idx acc
    simp only [chunkLoop]
    by_cases h : buf.length + w.length + 1 > 200
    · rw [if_pos h]
      obtain ⟨n, hn⟩ := ih (w ++ [' ']) (idx + 1) (acc ++ [⟨cid, t, pyStrip buf, idx⟩])
      refine ⟨n + 1, ?_⟩
      rw [hn]
      simp [List.range'_succ]
    · rw [if_neg h]
      exact ih (buf ++ w ++ [' ']) idx acc

theorem chunkLoop_content (cid t : Str) :
    ∀ (ws : List Str) (buf : Str) (idx : Nat) (acc : List CourseChunk),
      (∀ w ∈ ws, cleanWord w) → pySplit buf ≠ [] →
      (∀ c ∈ acc, pyStrip c.content ≠ []) →
      ∀ c ∈ chunkLoop cid t ws buf idx acc, pyStrip c.content ≠ [] := by
  intro ws
  induction ws with
  | nil =>
    intro buf idx acc _ hbuf hacc c hc
    have hne : pyStrip buf ≠ [] := fun h => hbuf (pyStrip_eq_nil_iff_split.mp h)
    simp only [chunkLoop] at hc
    rw [if_pos hne] at hc
    rcases List.mem_append.mp hc with h1 | h1
    · exact hacc c h1
    · simp only [List.mem_singleton] at h1
      subst h1
      intro h
      apply hbuf
      have h2 := pyStrip_eq_nil_iff_split.mp h
      rwa [pySplit_pyStrip] at h2
  | cons w ws ih =>
    intro buf idx acc hws hbuf hacc c hc
    have hw : cleanWord w := hws w (List.mem_cons_self _ _)
    have hws2 : ∀ v ∈ ws, cleanWord v := fun v hv => hws v (List.mem_cons_of_mem _ hv)
    simp only [chunkLoop] at hc
    by_cases h : buf.length + w.length + 1 > 200
    · rw [if_pos h] at hc
      refine ih (w ++ [' ']) (idx + 1) _ hws2 ?_ ?_ c hc
      · rw [show w ++ [' '] = w ++ ' ' :: ([] : Str) from rfl,
          pySplit_append_sep (by decide), pySplit_clean hw]
        simp
      · intro c2 hc2
        rcases List.mem_append.mp hc2 with h1 | h1
        · exact hacc c2 h1
        · simp only [List.mem_singleton] at h1
          subst h1
          intro h2
          apply hbuf
          have h3 := pyStrip_eq_nil_iff_split.mp h2
          rwa [pySplit_pyStrip] at h3
    · rw [if_neg h] at hc
      refine ih (buf ++ w ++ [' ']) idx acc hws2 ?_ hacc c hc
      intro hnil
      rw [pySplit_eq_nil_iff] at hnil
      obtain ⟨cw, w2, hcw⟩ : ∃ cw w2, w = cw :: w2 := by
        cases hwc : w with
        | nil => exact absurd hwc hw.1
        | cons a b => exact ⟨a, b, rfl⟩
      have hmem : cw ∈ buf ++ w ++ [' '] := by
        simp [hcw]
      have := hnil cw hmem
      rw [hw.2 cw (by simp [hcw])] at this
      exact Bool.false_ne_true this

/-- The invariant satisfied by the chunker buffer. -/
def bufInv (buf : Str) : Prop :=
  buf = [] ∨ ∃ cur, cur ≠ [] ∧ (∀ w ∈ cur, cleanWord w) ∧
    buf = joinTrail cur ∧ (buf.length ≤ 200 ∨ ∃ w, cur = [w])

/-- The length bound a produced chunk satisfies: at most 200 characters,
or a single whitespace-free word longer than 200. -/
def boundedChunk (c : CourseChunk) : Prop :=
  c.content.length ≤ 200 ∨
    (c.content.length > 200 ∧ pySplit c.content = [c.content])

theorem flush_bounded {buf : Str} (hinv : bufInv buf) :
    (pyStrip buf).length ≤ 200 ∨
      ((pyStrip buf).length > 200 ∧ pySplit (pyStrip buf) = [pyStrip buf]) := by
  rcases hinv with h | ⟨cur, hne, hcl, hbuf, hlen⟩
  · subst h; left; simp [pyStrip_nil]
  · subst hbuf
    rw [pyStrip_joinTrail hne hcl]
    rcases hlen with h1 | ⟨w, hw⟩
    · left
      have h2 := joinTrail_length_eq hne
      omega
    · subst hw
      have hcw : cleanWord w := hcl w (List.mem_cons_self _ _)
      by_cases h2 : w.length ≤ 200
      · left
        simpa [joinWith] using h2
      · right
        constructor
        · simp only [joinWith]; omega
        · simp only [joinWith]
          exact pySplit_clean hcw

theorem chunkLoop_bounded (cid t : Str) :
    ∀ (ws : List Str) (buf : Str) (idx : Nat) (acc : List CourseChunk),
      (∀ w ∈ ws, cleanWord w) → bufInv buf →
      (∀ c ∈ acc, boundedChunk c) →
      ∀ c ∈ chunkLoop cid t ws buf idx acc, boundedChunk c := by
  intro ws
  induction ws with
  | nil =>
    intro buf idx acc _ hinv hacc c hc
    simp only [chunkLoop] at hc
    by_cases h : pyStrip buf ≠ []
    · rw [if_pos h] at hc
      rcases List.mem_append.mp hc with h1 | h1
      · exact hacc c h1
      · simp only [List.mem_singleton] at h1
        subst h1
        exact flush_bounded hinv
    · rw [if_neg h] at hc
      exact hacc c hc
  | cons w ws ih =>
    intro buf idx acc hws hinv hacc c hc
    have hw : cleanWord w := hws w (List.mem_cons_self _ _)
    have hws2 : ∀ v ∈ ws, cleanWord v := fun v hv => hws v (List.mem_cons_of_mem _ hv)
    have hw1 : ∀ v ∈ ([w] : List Str), cleanWord v := by
      intro v hv; simp at hv; subst hv; exact hw
    simp only [chunkLoop] at hc
    by_cases h : buf.length + w.length + 1 > 200
    · rw [if_pos h] at hc
      refine ih (w ++ [' ']) (idx + 1) _ hws2 ?_ ?_ c hc
      · right
        exact ⟨[w], by simp, hw1, by simp [joinTrail], Or.inr ⟨w, rfl⟩⟩
      · intro c2 hc2
        rcases List.mem_append.mp hc2 with h1 | h1
        · exact hacc c2 h1
        · simp only [List.mem_singleton] at h1
          subst h1
          exact flush_bounded hinv
    · rw [if_neg h] at hc
      refine ih (buf ++ w ++ [' ']) idx acc hws2 ?_ hacc c hc
      rcases hinv with h1 | ⟨cur, hne, hcl, hbuf, _⟩
      · subst h1
        right
        refine ⟨[w], by simp, hw1, by simp [joinTrail], Or.inl ?_⟩
        simp at h ⊢
        omega
      · subst hbuf
        right
        refine ⟨cur ++ [w], by simp, ?_, (joinTrail_append_one cur w).symm, Or.inl ?_⟩
        · intro v hv
          rcases List.mem_append.mp hv with h1 | h1
          · exact hcl v h1
          · simp at h1; subst h1; exact hw
        · rw [← joinTrail_append_one]
          simp [joinTrail_append_one]
          omega

/-! ### Chunker-level results -/

theorem chunkCourse_words (cid t T : Str) :
    ((chunkCourse cid t T).map (fun c => pySplit c.content)).flatten = pySplit T := by
  have h := chunkLoop_flatten cid t (pySplit T) [] 0 []
    (fun w hw => mem_pySplit_clean w hw) (by intro w hw; simp at hw)
  simpa [chunkCourse, joinTrail_nil] using h

theorem pyStrip_word_space {w : Str} (hw : cleanWord w) :
    pyStrip (w ++ [' ']) = w := by
  have h := pyStrip_joinTrail (show ([w] : List Str) ≠ [] by simp)
    (by intro v hv; simp at hv; subst hv; exact hw)
  simpa [joinTrail, joinWith] using h

theorem pySplit_word_space {w : Str} (hw : cleanWord w) :
    pySplit (w ++ [' ']) = [w] := by
  rw [show w ++ [' '] = w ++ ' ' :: ([] : Str) from rfl,
    pySplit_append_sep (by decide), pySplit_clean hw]
  simp [pySplit_nil]

theorem chunkCourse_oversized_first {cid t T w : Str} {ws : List Str}
    (hsplit : pySplit T = w :: ws) (hlen : w.length + 1 > 200) :
    ∃ rest, chunkCourse cid t T =
      ⟨cid, t, [], 0⟩ :: ⟨cid, t, w, 1⟩ :: rest ∧
      ∀ c ∈ rest, pyStrip c.content ≠ [] := by
  have hwclean : cleanWord w := by
    have := @mem_pySplit_clean T w
    rw [hsplit] at this
    exact this (List.mem_cons_self _ _)
  have hwsclean : ∀ v ∈ ws, cleanWord v := by
    intro v hv
    have := @mem_pySplit_clean T v
    rw [hsplit] at this
    exact this (List.mem_cons_of_mem _ hv)
  rw [chunkCourse, hsplit]
  simp only [chunkLoop]
  rw [if_pos (by simpa using hlen)]
  simp only [pyStrip_nil, List.nil_append]
  cases ws with
  | nil =>
    refine ⟨[], ?_, by simp⟩
    simp only [chunkLoop]
    rw [if_pos (by rw [pyStrip_word_space hwclean]; exact hwclean.1)]
    rw [pyStrip_word_space hwclean]
    simp
  | cons w2 ws2 =>
    have hw2 : cleanWord w2 := hwsclean w2 (List.mem_cons_self _ _)
    have hws2 : ∀ v ∈ ws2, cleanWord v :=
      fun v hv => hwsclean v (List.mem_cons_of_mem _ hv)
    simp only [chunkLoop]
    rw [if_pos (by simp; omega)]
    rw [pyStrip_word_space hwclean]
    rw [chunkLoop_acc]
    refine ⟨chunkLoop cid t ws2 (w2 ++ [' ']) 2 [], by simp, ?_⟩
    intro c hc
    refine chunkLoop_content cid t ws2 (w2 ++ [' ']) 2 [] hws2 ?_ (by simp) c hc
    rw [pySplit_word_space hw2]
    simp

/-- C2 (amended): after `load_courses` every stored chunk has non-empty
trimmed content, except when the first word `w` of a course text satisfies
`len(w) + 1 > 200`: then an empty-content chunk is emitted at index 0 and
`w` itself, unsplit, is the content of the chunk at index 1, with every
later chunk again non-empty. -/
theorem chunk_content_amended (cid t T : Str) :
    (∀ w ws, pySplit T = w :: ws → w.length + 1 ≤ 200 →
       ∀ c ∈ chunkCourse cid t T, pyStrip c.content ≠ []) ∧
    (∀ w ws, pySplit T = w :: ws → w.length + 1 > 200 →
       ((chunkCourse cid t T).map (fun c => c.content)).take 2 = [[], w] ∧
       ∀ c ∈ (chunkCourse cid t T).drop 2, pyStrip c.content ≠ []) := by
  constructor
  · intro w ws hsplit hlen c hc
    have hwclean : cleanWord w := by
      have := @mem_pySplit_clean T w
      rw [hsplit] at this
      exact this (List.mem_cons_self _ _)
    have hwsclean : ∀ v ∈ ws, cleanWord v := by
      intro v hv
      have := @mem_pySplit_clean T v
      rw [hsplit] at this
      exact this (List.mem_cons_of_mem _ hv)
    rw [chunkCourse, hsplit] at hc
    simp only [chunkLoop] at hc
    rw [if_neg (by simp; omega)] at hc
    simp only [List.nil_append] at hc
    refine chunkLoop_content cid t ws (w ++ [' ']) 0 [] hwsclean ?_ (by simp) c hc
    rw [pySplit_word_space hwclean]
    simp
  · intro w ws hsplit hlen
    obtain ⟨rest, heq, hrest⟩ := chunkCourse_oversized_first hsplit hlen
    rw [heq]
    exact ⟨by simp, by simpa using hrest⟩

set_option maxRecDepth 40000 in
/-- C2 counterexample: a text consisting of one 201-character word yields
TWO chunks, the first with empty content — refuting both that every
stored chunk has non-empty trimmed content and that only one chunk is
created for the oversized word. -/
theorem chunk_content_cex :
    (chunkCourse ['x'] ['t'] (List.replicate 201 'a')).map (fun c => c.content)
        = [[], List.replicate 201 'a'] ∧
    ¬ (∀ c ∈ chunkCourse ['x'] ['t'] (List.replicate 201 'a'),
        pyStrip c.content ≠ []) := by
  constructor
  · decide
  · decide

/-- C2 witness: on a small ordinary text the amended statement applies and
every chunk has non-empty trimmed content. -/
theorem chunk_content_amended_witness :
    pySplit "ab cd".data = ["ab".data, "cd".data] ∧
    ("ab".data : Str).length + 1 ≤ 200 ∧
    ∀ c ∈ chunkCourse ['x'] ['t'] "ab cd".data, pyStrip c.content ≠ [] := by
  refine ⟨by decide, by decide, ?_⟩
  exact (chunk_content_amended ['x'] ['t'] "ab cd".data).1
    "ab".data ["cd".data] (by decide) (by decide)

theorem chunkCourse_indices (cid t T : Str) :
    (chunkCourse cid t T).map (fun c => c.chunk_index)
      = List.range (chunkCourse cid t T).length := by
  obtain ⟨n, hn⟩ := chunkLoop_idx cid t (pySplit T) [] 0 []
  simp only [chunkCourse]
  rw [List.range_eq_range']
  have hlen : (chunkLoop cid t (pySplit T) [] 0 []).length = n := by
    have := congrArg List.length hn
    simpa using this
  rw [hlen]
  simpa using hn

/-- C3: chunking a text and joining the chunk contents (which are in
`chunk_index` order) with single spaces preserves the whitespace-split
word sequence exactly; empty text yields zero chunks. -/
theorem chunking_preserves_words (cid t T : Str) :
    pySplit (joinWith [' '] ((chunkCourse cid t T).map (fun c => c.content)))
        = pySplit T
    ∧ (chunkCourse cid t T).map (fun c => c.chunk_index)
        = List.range (chunkCourse cid t T).length
    ∧ chunkCourse cid t [] = [] := by
  refine ⟨?_, chunkCourse_indices cid t T, rfl⟩
  rw [pySplit_joinWith_flatten, List.map_map]
  exact chunkCourse_words cid t T

/-- C6: the content of every chunk has at most 200 characters, except a chunk
that is a single whitespace-free word longer than 200 characters,
accepted unsplit. -/
theorem chunk_length_bound (cid t T : Str) :
    ∀ c ∈ chunkCourse cid t T,
      c.content.length ≤ 200 ∨
        (c.content.length > 200 ∧ pySplit c.content = [c.content]) := by
  intro c hc
  exact chunkLoop_bounded cid t (pySplit T) [] 0 []
    (fun w hw => mem_pySplit_clean w hw) (Or.inl rfl) (by simp) c hc

/-- C6 witness: the single chunk of a small text satisfies the bound. -/
theorem chunk_length_bound_witness :
    (⟨['x'], ['t'], "ab cd".data, 0⟩ : CourseChunk) ∈ chunkCourse ['x'] ['t'] "ab cd".data ∧
    (("ab cd".data : Str).length ≤ 200 ∨
      (("ab cd".data : Str).length > 200 ∧ pySplit "ab cd".data = ["ab cd".data])) := by
  have hmem : (⟨['x'], ['t'], "ab cd".data, 0⟩ : CourseChunk)
      ∈ chunkCourse ['x'] ['t'] "ab cd".data := by decide
  exact ⟨hmem, chunk_length_bound ['x'] ['t'] "ab cd".data _ hmem⟩

/-! ### Properties of the retriever -/

theorem mem_insertDesc {p x : ℚ × CourseChunk} :
    ∀ {l : List (ℚ × CourseChunk)}, x ∈ insertDesc p l ↔ x = p ∨ x ∈ l := by
  intro l
  induction l with
  | nil => simp [insertDesc]
  | cons q rest ih =>
    simp only [insertDesc]
    by_cases h : p.1 < q.1
    · rw [if_pos h]
      simp only [List.mem_cons, ih]
      tauto
    · rw [if_neg h]
      simp [List.mem_cons]

theorem insertDesc_length (p : ℚ × CourseChunk) (l : List (ℚ × CourseChunk)) :
    (insertDesc p l).length = l.length + 1 := by
  induction l with
  | nil => rfl
  | cons q rest ih =>
    simp only [insertDesc]
    by_cases h : p.1 < q.1
    · rw [if_pos h]; simp [ih]
    · rw [if_neg h]; simp

theorem sortDesc_length (l : List (ℚ × CourseChunk)) :
    (sortDesc l).length = l.length := by
  induction l with
  | nil => rfl
  | cons p rest ih => simp [sortDesc, insertDesc_length, ih]

theorem mem_sortDesc {x : ℚ × CourseChunk} :
    ∀ {l : List (ℚ × CourseChunk)}, x ∈ sortDesc l ↔ x ∈ l := by
  intro l
  induction l with
  | nil => simp [sortDesc]
  | cons p rest ih => simp [sortDesc, mem_insertDesc, ih]

theorem insertDesc_sorted {p : ℚ × CourseChunk} {l : List (ℚ × CourseChunk)}
    (h : List.Pairwise (fun a b => b.1 ≤ a.1) l) :
    List.Pairwise (fun a b => b.1 ≤ a.1) (insertDesc p l) := by
  induction l with
  | nil => simp [insertDesc]
  | cons q rest ih =>
    simp only [insertDesc]
    rcases List.pairwise_cons.mp h with ⟨hq, hrest⟩
    by_cases hlt : p.1 < q.1
    · rw [if_pos hlt]
      refine List.pairwise_cons.mpr ⟨?_, ih hrest⟩
      intro x hx
      rcases mem_insertDesc.mp hx with h1 | h1
      · subst h1; exact le_of_lt hlt
      · exact hq x h1
    · rw [if_neg hlt]
      push_neg at hlt
      refine List.pairwise_cons.mpr ⟨?_, h⟩
      intro x hx
      rcases List.mem_cons.mp hx with h1 | h1
      · subst h1; exact hlt
      · exact le_trans (hq x h1) hlt

theorem sortDesc_sorted (l : List (ℚ × CourseChunk)) :
    List.Pairwise (fun a b => b.1 ≤ a.1) (sortDesc l) := by
  induction l with
  | nil => simp [sortDesc]
  | cons p rest ih => exact insertDesc_sorted ih

theorem insertDesc_filter (s : ℚ) (p : ℚ × CourseChunk)
    (l : List (ℚ × CourseChunk)) :
    (insertDesc p l).filter (fun x => decide (x.1 = s))
      = if p.1 = s then p :: l.filter (fun x => decide (x.1 = s))
        else l.filter (fun x => decide (x.1 = s)) := by
  induction l with
  | nil =>
    by_cases h : p.1 = s <;> simp [insertDesc, List.filter_cons, h]
  | cons q rest ih =>
    simp only [insertDesc]
    by_cases hlt : p.1 < q.1
    · rw [if_pos hlt]
      by_cases hps : p.1 = s
      · have hqs : ¬ q.1 = s := by
          intro h2
          rw [← hps] at h2
          exact absurd h2 (ne_of_gt hlt)
        simp [List.filter_cons, hqs, ih, hps]
      · by_cases hqs : q.1 = s <;> simp [List.filter_cons, hqs, ih, hps]
    · rw [if_neg hlt]
      by_cases hps : p.1 = s <;> simp [List.filter_cons, hps]

theorem sortDesc_filter (s : ℚ) (l : List (ℚ × CourseChunk)) :
    (sortDesc l).filter (fun x => decide (x.1 = s))
      = l.filter (fun x => decide (x.1 = s)) := by
  induction l with
  | nil => rfl
  | cons p rest ih =>
    rw [show sortDesc (p :: rest) = insertDesc p (sortDesc rest) from rfl,
      insertDesc_filter, List.filter_cons]
    by_cases h : p.1 = s
    · rw [if_pos h, ih, if_pos (by simp [h])]
    · rw [if_neg h, ih, if_neg (by simp [h])]

theorem pyTakeSlice_nil (k : Int) : pyTakeSlice k ([] : List (ℚ × CourseChunk)) = [] := by
  by_cases h : 0 ≤ k <;> simp [pyTakeSlice, h]

theorem pyTakeSlice_subset (k : Int) (l : List (ℚ × CourseChunk)) :
    ∀ x ∈ pyTakeSlice k l, x ∈ l := by
  intro x hx
  by_cases h : 0 ≤ k
  · rw [pyTakeSlice, if_pos h] at hx
    exact List.take_subset _ _ hx
  · rw [pyTakeSlice, if_neg h] at hx
    exact List.take_subset _ _ hx

theorem pyTakeSlice_length (k : Int) (l : List (ℚ × CourseChunk)) :
    (pyTakeSlice k l).length
      = if 0 ≤ k then min k.toNat l.length else l.length - (-k).toNat := by
  by_cases h : 0 ≤ k
  · simp [pyTakeSlice, h]
  · simp [pyTakeSlice, h, List.length_take]

theorem mem_scoredList {store : Store} {q : Str} {x : ℚ × CourseChunk}
    (hx : x ∈ scoredList store q) :
    0 < overlapOf q x.2.content ∧ x.1 = scoreOf q x.2.content := by
  obtain ⟨c, hc, heq⟩ := List.mem_filterMap.mp hx
  by_cases h : 0 < overlapOf q c.content
  · rw [if_pos h] at heq
    have hx2 : x = (scoreOf q c.content, c) := (Option.some.inj heq).symm
    subst hx2
    exact ⟨h, rfl⟩
  · rw [if_neg h] at heq
    exact Option.noConfusion heq

theorem scoreOf_pos_le_one {q c : Str} (h : 0 < overlapOf q c) :
    0 < scoreOf q c ∧ scoreOf q c ≤ 1 := by
  have hden : (0 : ℚ) < ((max (termSet q).card 1 : ℕ) : ℚ) := by
    have h1 : (0 : ℕ) < max (termSet q).card 1 :=
      lt_of_lt_of_le Nat.one_pos (le_max_right _ _)
    exact_mod_cast h1
  constructor
  · apply div_pos _ hden
    exact_mod_cast h
  · rw [scoreOf, div_le_one hden]
    have hov : overlapOf q c ≤ (termSet q).card :=
      Finset.card_le_card Finset.inter_subset_left
    have h2 : overlapOf q c ≤ max (termSet q).card 1 :=
      le_trans hov (le_max_left _ _)
    exact_mod_cast h2

theorem scoredList_eq_nil {store : Store} {q : Str}
    (h : ∀ pr ∈ store, ∀ c ∈ pr.2, termSet q ∩ termSet c.content = ∅) :
    scoredList store q = [] := by
  rw [scoredList, List.filterMap_eq_nil_iff]
  intro c hc
  obtain ⟨chs, hchs, hcmem⟩ := List.mem_flatten.mp hc
  obtain ⟨pr, hpr, hsnd⟩ := List.mem_map.mp hchs
  have hiz : termSet q ∩ termSet c.content = ∅ := by
    apply h pr hpr
    rw [hsnd]
    exact hcmem
  have : overlapOf q c.content = 0 := by
    rw [overlapOf, hiz, Finset.card_empty]
  rw [if_neg (by omega)]

/-- C1 (amended): `retrieve` returns at most `top_k` chunks when
`top_k > 0` (all matches, unpadded, when fewer than `top_k` exist), and
the empty list when `top_k = 0`; but a negative `top_k` follows Python
slice semantics `scored[:top_k]` — it returns all but the last `-top_k`
matches, which is non-empty whenever more than `-top_k` chunks match. -/
theorem retrieve_truncation_amended (store : Store) (q : Str) (top_k : Int) :
    (retrieve store q top_k).length
      = (if 0 ≤ top_k then min top_k.toNat (scoredList store q).length
         else (scoredList store q).length - (-top_k).toNat)
    ∧ (0 < top_k → (retrieve store q top_k).length ≤ top_k.toNat)
    ∧ (top_k = 0 → retrieve store q top_k = [])
    ∧ (0 ≤ top_k → (scoredList store q).length ≤ top_k.toNat →
        retrieve store q top_k = (sortDesc (scoredList store q)).map Prod.snd) := by
  have hlen : (retrieve store q top_k).length
      = (pyTakeSlice top_k (sortDesc (scoredList store q))).length := by
    rw [retrieve, List.length_map]
  refine ⟨?_, ?_, ?_, ?_⟩
  · rw [hlen, pyTakeSlice_length, sortDesc_length]
  · intro hpos
    rw [hlen, pyTakeSlice_length, if_pos (le_of_lt hpos)]
    exact min_le_left _ _
  · intro h0
    subst h0
    rw [retrieve, pyTakeSlice, if_pos le_rfl]
    simp
  · intro hnn hle
    rw [retrieve, pyTakeSlice, if_pos hnn, List.take_of_length_le]
    rw [sortDesc_length]
    exact hle

/-- A store with two chunks that both match the query `hello`. -/
def cexStore : Store :=
  [(['c'], [⟨['c'], ['t'], "hello there".data, 0⟩,
            ⟨['c'], ['t'], "hello world".data, 1⟩])]

/-- C1 counterexample: with two matching chunks and `top_k = -1`,
`retrieve` returns one chunk (Python slice `scored[:-1]`), not the empty
list the claim requires for every `top_k ≤ 0`. -/
theorem retrieve_negative_topk_cex :
    retrieve cexStore "hello".data (-1) ≠ []
    ∧ (retrieve cexStore "hello".data (-1)).length = 1 := by
  have hs : (scoredList cexStore "hello".data).length = 2 := by decide
  have hlen : (retrieve cexStore "hello".data (-1)).length = 1 := by
    rw [retrieve, List.length_map, pyTakeSlice_length, sortDesc_length, hs]
    norm_num
  refine ⟨?_, hlen⟩
  intro hnil
  rw [hnil] at hlen
  simp at hlen

/-- C1 witness: with `top_k = 1` the bound applies and holds. -/
theorem retrieve_truncation_witness :
    (0 : Int) < 1 ∧ (retrieve cexStore "hello".data 1).length ≤ (1 : Int).toNat :=
  ⟨by decide,
    (retrieve_truncation_amended cexStore "hello".data 1).2.1 (by decide)⟩

/-- C4: `retrieve` maps the stable score-descending sort of the scored
enumeration through the slice: scores are pairwise non-increasing in the
sorted list, the sublist at any fixed score is exactly the enumeration
sublist at that score (ties keep store enumeration order), and the result
is a function of the store and arguments alone. -/
theorem retrieve_ordering_stable (store : Store) (q : Str) (top_k : Int) :
    retrieve store q top_k
        = (pyTakeSlice top_k (sortDesc (scoredList store q))).map Prod.snd
    ∧ List.Pairwise (fun a b => b.1 ≤ a.1) (sortDesc (scoredList store q))
    ∧ (∀ s : ℚ, (sortDesc (scoredList store q)).filter (fun x => decide (x.1 = s))
        = (scoredList store q).filter (fun x => decide (x.1 = s)))
    ∧ retrieve store q top_k = retrieve store q top_k :=
  ⟨rfl, sortDesc_sorted _, fun s => sortDesc_filter s _, rfl⟩

/-- C5: every scored chunk overlaps the query and its score is
`overlap / max(|query_terms|, 1)`, a value in `(0, 1]`; a chunk with no
term overlap is never returned, and if no chunk overlaps the query the
result is empty. -/
theorem retrieve_scoring (store : Store) (q : Str) (top_k : Int) :
    (∀ p ∈ scoredList store q,
        0 < overlapOf q p.2.content
        ∧ p.1 = scoreOf q p.2.content
        ∧ 0 < p.1 ∧ p.1 ≤ 1)
    ∧ (∀ c ∈ retrieve store q top_k, termSet q ∩ termSet c.content ≠ ∅)
    ∧ ((∀ pr ∈ store, ∀ c ∈ pr.2,
          termSet q ∩ termSet c.content = ∅) → retrieve store q top_k = []) := by
  refine ⟨?_, ?_, ?_⟩
  · intro p hp
    obtain ⟨hov, hsc⟩ := mem_scoredList hp
    obtain ⟨hpos, hle⟩ := scoreOf_pos_le_one hov
    exact ⟨hov, hsc, by rw [hsc]; exact hpos, by rw [hsc]; exact hle⟩
  · intro c hc
    obtain ⟨pr, hpr, hsnd⟩ := List.mem_map.mp hc
    have hmem : pr ∈ scoredList store q :=
      mem_sortDesc.mp (pyTakeSlice_subset _ _ pr hpr)
    have hov := (mem_scoredList hmem).1
    rw [← hsnd]
    intro hempty
    rw [overlapOf, hempty, Finset.card_empty] at hov
    exact absurd hov (by omega)
  · intro h
    rw [retrieve, scoredList_eq_nil h]
    rw [show sortDesc [] = [] from rfl, pyTakeSlice_nil]
    rfl

/-- A store whose single chunk shares no token with the query `hello`. -/
def cexStore2 : Store := [(['d'], [⟨['d'], ['t'], "world only".data, 0⟩])]

/-- C5 witness: a query with no token in any chunk retrieves nothing. -/
theorem retrieve_scoring_witness :
    retrieve cexStore2 "hello".data 3 = [] :=
  (retrieve_scoring cexStore2 "hello".data 3).2.2 (by decide)

/-! ### Properties of the synthesizer and the query endpoint -/

/-- Substring containment. -/
def strContains (s p : Str) : Prop := ∃ a b, s = a ++ p ++ b

theorem strContains_refl (p : Str) : strContains p p := ⟨[], [], by simp⟩

theorem strContains_append_left (x : Str) {s p : Str} (h : strContains s p) :
    strContains (x ++ s) p := by
  obtain ⟨a, b, rfl⟩ := h
  exact ⟨x ++ a, b, by simp⟩

theorem strContains_append_right (y : Str) {s p : Str} (h : strContains s p) :
    strContains (s ++ y) p := by
  obtain ⟨a, b, rfl⟩ := h
  exact ⟨a, b ++ y, by simp⟩

theorem strContains_trans {s p r : Str} (h1 : strContains s p)
    (h2 : strContains p r) : strContains s r := by
  obtain ⟨a, b, rfl⟩ := h1
  obtain ⟨a2, b2, rfl⟩ := h2
  exact ⟨a ++ a2, b2 ++ b, by simp⟩

theorem strContains_joinWith {sep : Str} {l : List Str} {x : Str} (hx : x ∈ l) :
    strContains (joinWith sep l) x := by
  induction l with
  | nil => simp at hx
  | cons w ws ih =>
    rcases List.mem_cons.mp hx with h1 | h1
    · subst h1
      cases ws with
      | nil => exact strContains_refl x
      | cons v vs =>
        rw [joinWith_cons₂]
        exact strContains_append_right _
          (strContains_append_right _ (strContains_refl x))
    · cases ws with
      | nil => simp at h1
      | cons v vs =>
        rw [joinWith_cons₂]
        exact strContains_append_left _ (ih h1)

theorem strContains_chunkLine_title (c : CourseChunk) :
    strContains (chunkLine c) c.title :=
  ⟨"[".data, "]: ".data ++ c.content, by simp [chunkLine]⟩

theorem strContains_chunkLine_content (c : CourseChunk) :
    strContains (chunkLine c) c.content :=
  ⟨"[".data ++ c.title ++ "]: ".data, [], by simp [chunkLine]⟩

/-- C7: on an empty chunk list `generate_response` returns the fixed
fallback, whose lowercasing contains the expected marker phrase; on a
non-empty list
it renders `[title]: content` lines joined by newlines, wrapped between
the fixed lead-in and the fixed trailer quoting the query verbatim, so
the output contains every title, every content and the query itself. -/
theorem generate_response_spec (q : Str) (chunks : List CourseChunk) :
    (generate_response q [] = fallbackMsg
      ∧ strContains (lowerStr fallbackMsg) "couldn\x27t find".data)
    ∧ (chunks ≠ [] →
        generate_response q chunks
          = "Based on the course materials:\n\n".data
            ++ joinWith "\n".data (chunks.map chunkLine)
            ++ "\n\nThis information is relevant to your query: \"".data
            ++ q ++ "\"".data
        ∧ strContains (generate_response q chunks) q
        ∧ ∀ c ∈ chunks,
            strContains (generate_response q chunks) c.title
            ∧ strContains (generate_response q chunks) c.content) := by
  constructor
  · exact ⟨rfl,
      ⟨"i ".data, " relevant course material for your question.".data, by decide⟩⟩
  · intro hne
    have heq : generate_response q chunks
        = "Based on the course materials:\n\n".data
          ++ joinWith "\n".data (chunks.map chunkLine)
          ++ "\n\nThis information is relevant to your query: \"".data
          ++ q ++ "\"".data := by
      rw [generate_response, if_neg hne]
    refine ⟨heq, ?_, ?_⟩
    · rw [heq]
      exact ⟨_, _, rfl⟩
    · intro c hc
      have hline : strContains
          (joinWith "\n".data (chunks.map chunkLine)) (chunkLine c) :=
        strContains_joinWith (List.mem_map_of_mem _ hc)
      have hwhole : strContains (generate_response q chunks) (chunkLine c) := by
        rw [heq]
        exact strContains_append_right _ (strContains_append_right _
          (strContains_append_right _ (strContains_append_left _ hline)))
      exact ⟨strContains_trans hwhole (strContains_chunkLine_title c),
        strContains_trans hwhole (strContains_chunkLine_content c)⟩

/-- C7 witness: the rendered answer for one concrete chunk contains the
query text. -/
theorem generate_response_witness :
    ([⟨['c'], "T".data, "body".data, 0⟩] : List CourseChunk) ≠ []
    ∧ strContains
        (generate_response "hi".data [⟨['c'], "T".data, "body".data, 0⟩])
        "hi".data :=
  ⟨by decide,
    ((generate_response_spec "hi".data
      [⟨['c'], "T".data, "body".data, 0⟩]).2 (by decide)).2.1⟩

theorem retrieve_eq_nil_of_scored_nil {store : Store} {q : Str} {top_k : Int}
    (h : scoredList store q = []) : retrieve store q top_k = [] := by
  rw [retrieve, h, show sortDesc [] = [] from rfl, pyTakeSlice_nil]
  rfl

/-- C8: the query operation signals the 422 validation failure exactly
when the question is empty or whitespace-only; otherwise it succeeds with
the synthesized answer and one `{course_id, title, chunk_index}` source
per retrieved chunk in rank order, and with zero matches it returns the
fallback answer and an empty source list. -/
theorem queryOp_validation (store : Store) (question : Str) (top_k : Int) :
    (queryOp store question top_k = none ↔ ∀ c ∈ question, isSpace c = true)
    ∧ (¬(∀ c ∈ question, isSpace c = true) →
        queryOp store question top_k
          = some (generate_response question (retrieve store question top_k),
              (retrieve store question top_k).map
                (fun c => (c.course_id, c.title, c.chunk_index))))
    ∧ (¬(∀ c ∈ question, isSpace c = true) →
        retrieve store question top_k = [] →
        queryOp store question top_k = some (fallbackMsg, [])) := by
  refine ⟨?_, ?_, ?_⟩
  · by_cases h : pyStrip question = []
    · rw [queryOp, if_pos h]
      exact iff_of_true rfl (pyStrip_eq_nil_iff.mp h)
    · rw [queryOp, if_neg h]
      constructor
      · intro h2; exact Option.noConfusion h2
      · intro hall; exact absurd (pyStrip_eq_nil_iff.mpr hall) h
  · intro hna
    have h : pyStrip question ≠ [] := fun hh => hna (pyStrip_eq_nil_iff.mp hh)
    rw [queryOp, if_neg h]
  · intro hna hret
    have h : pyStrip question ≠ [] := fun hh => hna (pyStrip_eq_nil_iff.mp hh)
    rw [queryOp, if_neg h, hret]
    rfl

/-- C8 witness: a non-blank question over a store it does not match
succeeds with the fallback answer and empty sources. -/
theorem queryOp_validation_witness :
    ¬(∀ c ∈ ("hi".data : Str), isSpace c = true)
    ∧ queryOp cexStore2 "hi".data 3 = some (fallbackMsg, []) := by
  have hs : scoredList cexStore2 "hi".data = [] := by decide
  refine ⟨by decide, ?_⟩
  exact (queryOp_validation cexStore2 "hi".data 3).2.2 (by decide)
    (retrieve_eq_nil_of_scored_nil hs)

/-! ### Properties of `list_courses` and `load_courses` -/

theorem listCoursesAux_eq :
    ∀ (store : Store) (seen : List Str),
      (store.map Prod.fst).Nodup →
      (∀ k ∈ store.map Prod.fst, k ∉ seen) →
      listCoursesAux store seen = store.map (fun p => courseEntry p.1 p.2) := by
  intro store
  induction store with
  | nil => intro seen _ _; rfl
  | cons pr rest ih =>
    intro seen hnd hseen
    obtain ⟨cid, chs⟩ := pr
    simp only [listCoursesAux]
    rw [if_neg (hseen cid (by simp))]
    have hnd3 : (cid :: rest.map Prod.fst).Nodup := by
      rw [List.map_cons] at hnd; exact hnd
    have hnd2 := List.nodup_cons.mp hnd3
    rw [ih (cid :: seen) hnd2.2]
    · simp [courseEntry]
    · intro k hk
      rw [List.mem_cons]
      push_neg
      exact ⟨fun hkc => hnd2.1 (hkc ▸ hk), hseen k (by simp [hk])⟩

/-- C9: when the store keys are distinct (which holds for every store
`load_courses` builds), `list_courses` returns one record per course in
store iteration order, whose title is the title of the first chunk, or the
course id when there are no chunks, and whose count is the chunk count;
empty course content produces zero chunks, so such a course is listed
with count 0. -/
theorem list_courses_spec (store : Store) :
    ((store.map Prod.fst).Nodup →
      list_courses store = store.map (fun p => courseEntry p.1 p.2))
    ∧ (∀ cid t : Str, chunkCourse cid t [] = [])
    ∧ (∀ cid : Str, courseEntry cid [] = (cid, cid, 0))
    ∧ (∀ cid : Str, ∀ c : CourseChunk, ∀ chs : List CourseChunk,
        courseEntry cid (c :: chs) = (cid, c.title, chs.length + 1)) := by
  refine ⟨?_, fun cid t => rfl, fun cid => rfl, fun cid c chs => rfl⟩
  intro hnd
  exact listCoursesAux_eq store [] hnd (by simp)

/-- C9 witness: a two-course store with distinct keys, one course having
no chunks, is listed entry-by-entry. -/
theorem list_courses_witness :
    ((([(['a'], ([] : List CourseChunk)),
        (['b'], [⟨['b'], "TB".data, "x".data, 0⟩])] : Store).map Prod.fst).Nodup)
    ∧ list_courses [(['a'], []), (['b'], [⟨['b'], "TB".data, "x".data, 0⟩])]
        = [(['a'], ['a'], 0), (['b'], "TB".data, 1)] := by
  have h : (([(['a'], ([] : List CourseChunk)),
      (['b'], [⟨['b'], "TB".data, "x".data, 0⟩])] : Store).map Prod.fst).Nodup := by
    decide
  refine ⟨h, ?_⟩
  rw [(list_courses_spec _).1 h]
  rfl

/-- Python dict lookup `d[k]` (as an option). -/
def lookupStore (k : Str) : Store → Option (List CourseChunk)
  | [] => none
  | (k2, v) :: rest => if k2 = k then some v else lookupStore k rest

theorem lookupStore_dictInsert_self (k : Str) (v : List CourseChunk) :
    ∀ st : Store, lookupStore k (dictInsert k v st) = some v := by
  intro st
  induction st with
  | nil => simp [dictInsert, lookupStore]
  | cons pr rest ih =>
    obtain ⟨k2, v2⟩ := pr
    simp only [dictInsert]
    by_cases h : k2 = k
    · rw [if_pos h]
      simp [lookupStore, h]
    · rw [if_neg h]
      simp [lookupStore, h, ih]

theorem lookupStore_dictInsert_ne {k k2 : Str} (hne : k2 ≠ k)
    (v : List CourseChunk) :
    ∀ st : Store, lookupStore k2 (dictInsert k v st) = lookupStore k2 st := by
  intro st
  induction st with
  | nil =>
    simp only [dictInsert, lookupStore]
    rw [if_neg (fun h => hne h.symm)]
  | cons pr rest ih =>
    obtain ⟨k3, v3⟩ := pr
    simp only [dictInsert]
    by_cases h : k3 = k
    · rw [if_pos h]
      simp only [lookupStore]
      rw [if_neg (h ▸ fun hh => hne (hh ▸ rfl)), if_neg (h ▸ fun hh => hne (hh ▸ rfl))]
    · rw [if_neg h]
      simp only [lookupStore]
      by_cases h2 : k3 = k2
      · rw [if_pos h2, if_pos h2]
      · rw [if_neg h2, if_neg h2, ih]

theorem mem_keys_dictInsert (k k2 : Str) (v : List CourseChunk) :
    ∀ st : Store,
      k2 ∈ (dictInsert k v st).map Prod.fst ↔ k2 = k ∨ k2 ∈ st.map Prod.fst := by
  intro st
  induction st with
  | nil => simp [dictInsert]
  | cons pr rest ih =>
    obtain ⟨k3, v3⟩ := pr
    simp only [dictInsert]
    by_cases h : k3 = k
    · rw [if_pos h]
      subst h
      simp
    · rw [if_neg h]
      simp only [List.map_cons, List.mem_cons, ih]
      tauto

theorem nodup_keys_dictInsert (k : Str) (v : List CourseChunk) :
    ∀ st : Store, (st.map Prod.fst).Nodup →
      ((dictInsert k v st).map Prod.fst).Nodup := by
  intro st
  induction st with
  | nil => intro _; simp [dictInsert]
  | cons pr rest ih =>
    intro hnd
    obtain ⟨k3, v3⟩ := pr
    rw [List.map_cons] at hnd
    have hnd2 := List.nodup_cons.mp hnd
    simp only [dictInsert]
    by_cases h : k3 = k
    · rw [if_pos h]
      rw [List.map_cons]
      exact List.nodup_cons.mpr hnd2
    · rw [if_neg h]
      rw [List.map_cons]
      refine List.nodup_cons.mpr ⟨?_, ih hnd2.2⟩
      rw [mem_keys_dictInsert]
      push_neg
      exact ⟨h, hnd2.1⟩

/-- The loop of `load_courses`, starting from an arbitrary store state. -/
def buildStore (cs : List CourseInput) (st : Store) : Store :=
  cs.foldl
    (fun st c => dictInsert c.id (chunkCourse c.id c.title c.content) st) st

theorem load_courses_eq_buildStore (prior : Store) (cs : List CourseInput) :
    load_courses prior cs = buildStore cs [] := rfl

theorem lookupStore_buildStore (cs : List CourseInput) :
    ∀ (st : Store) (k : Str),
      lookupStore k (buildStore cs st)
        = ((cs.reverse.find? (fun c => decide (c.id = k))).map
            (fun c => chunkCourse c.id c.title c.content)).or
            (lookupStore k st) := by
  induction cs with
  | nil => intro st k; simp [buildStore]
  | cons c cs ih =>
    intro st k
    rw [show buildStore (c :: cs) st
        = buildStore cs (dictInsert c.id (chunkCourse c.id c.title c.content) st)
      from rfl]
    rw [ih, List.reverse_cons, List.find?_append]
    cases hf : cs.reverse.find? (fun c2 => decide (c2.id = k)) with
    | some x => simp [Option.or]
    | none =>
      simp only [Option.or]
      by_cases h : c.id = k
      · subst h
        rw [lookupStore_dictInsert_self]
        simp [List.find?]
      · rw [lookupStore_dictInsert_ne (fun hh => h hh.symm)]
        simp [List.find?, h]

theorem nodup_keys_buildStore (cs : List CourseInput) :
    ∀ st : Store, (st.map Prod.fst).Nodup →
      ((buildStore cs st).map Prod.fst).Nodup := by
  induction cs with
  | nil => intro st h; exact h
  | cons c cs ih =>
    intro st h
    exact ih _ (nodup_keys_dictInsert _ _ _ h)

theorem lookupStore_isSome_iff (k : Str) :
    ∀ st : Store, (lookupStore k st).isSome ↔ k ∈ st.map Prod.fst := by
  intro st
  induction st with
  | nil => simp [lookupStore]
  | cons pr rest ih =>
    obtain ⟨k2, v⟩ := pr
    simp only [lookupStore, List.map_cons, List.mem_cons]
    by_cases h : k2 = k
    · rw [if_pos h]
      simp [h]
    · rw [if_neg h]
      rw [ih]
      constructor
      · exact Or.inr
      · intro hh
        rcases hh with h1 | h1
        · exact absurd h1.symm h
        · exact h1

theorem countP_eq_one_of_nodup {l : List Str} (hnd : l.Nodup) {k : Str}
    (hk : k ∈ l) : l.countP (fun x => decide (x = k)) = 1 := by
  induction l with
  | nil => simp at hk
  | cons a rest ih =>
    have hnd2 := List.nodup_cons.mp hnd
    rw [List.countP_cons]
    rcases List.mem_cons.mp hk with h1 | h1
    · subst h1
      have hz : rest.countP (fun x => decide (x = k)) = 0 := by
        rw [List.countP_eq_zero]
        intro x hx
        simp only [decide_eq_true_eq]
        intro hxk
        exact hnd2.1 (hxk ▸ hx)
      simp [hz]
    · have ha : ¬ (a = k) := by
        intro hak
        exact hnd2.1 (hak ▸ h1)
      rw [ih hnd2.2 h1]
      simp [ha]

/-- C10: after `load_courses` the store keys are exactly the ids
occurring in the input (each once); the chunks stored under an id are the
ones built from the last input record carrying that id; and
`list_courses` afterwards reports exactly one entry per loaded id. -/
theorem load_courses_keys (prior : Store) (cs : List CourseInput) :
    (∀ k, k ∈ (load_courses prior cs).map Prod.fst ↔ k ∈ cs.map CourseInput.id)
    ∧ ((load_courses prior cs).map Prod.fst).Nodup
    ∧ (∀ k, lookupStore k (load_courses prior cs)
        = (cs.reverse.find? (fun c => decide (c.id = k))).map
            (fun c => chunkCourse c.id c.title c.content))
    ∧ (∀ k, k ∈ cs.map CourseInput.id →
        (list_courses (load_courses prior cs)).countP
            (fun e => decide (e.1 = k)) = 1) := by
  have hlook : ∀ k, lookupStore k (load_courses prior cs)
      = (cs.reverse.find? (fun c => decide (c.id = k))).map
          (fun c => chunkCourse c.id c.title c.content) := by
    intro k
    rw [load_courses_eq_buildStore, lookupStore_buildStore]
    cases (cs.reverse.find? (fun c => decide (c.id = k))).map
        (fun c => chunkCourse c.id c.title c.content) with
    | none => rfl
    | some x => rfl
  have hmem : ∀ k,
      k ∈ (load_courses prior cs).map Prod.fst ↔ k ∈ cs.map CourseInput.id := by
    intro k
    rw [← lookupStore_isSome_iff, hlook]
    simp only [Option.isSome_map', List.find?_isSome, List.mem_reverse,
      decide_eq_true_eq, List.mem_map]
  have hnd : ((load_courses prior cs).map Prod.fst).Nodup := by
    rw [load_courses_eq_buildStore]
    exact nodup_keys_buildStore cs [] (by simp)
  refine ⟨hmem, hnd, hlook, ?_⟩
  intro k hk
  have hlc : list_courses (load_courses prior cs)
      = (load_courses prior cs).map (fun p => courseEntry p.1 p.2) :=
    listCoursesAux_eq _ [] hnd (by simp)
  rw [hlc, List.countP_map]
  have hcomp : ((fun (e : Str × Str × Nat) => decide (e.1 = k))
      ∘ (fun (p : Str × List CourseChunk) => courseEntry p.1 p.2))
      = fun (p : Str × List CourseChunk) => decide (p.1 = k) := rfl
  rw [hcomp]
  have h2 : (load_courses prior cs).countP (fun p => decide (p.1 = k))
      = ((load_courses prior cs).map Prod.fst).countP
          (fun x => decide (x = k)) := by
    rw [List.countP_map]
    rfl
  rw [h2]
  exact countP_eq_one_of_nodup hnd ((hmem k).mpr hk)

/-- A course list with a duplicated id `a` (the later record wins). -/
def sampleCourses : List CourseInput :=
  [⟨['a'], "TA".data, "one two".data⟩,
   ⟨['b'], "TB".data, []⟩,
   ⟨['a'], "TA2".data, "three".data⟩]

/-- C10 witness: the duplicated id is listed exactly once after loading. -/
theorem load_courses_keys_witness :
    (['a'] ∈ sampleCourses.map CourseInput.id)
    ∧ (list_courses (load_courses [] sampleCourses)).countP
        (fun e => decide (e.1 = ['a'])) = 1 := by
  refine ⟨by decide, ?_⟩
  exact (load_courses_keys [] sampleCourses).2.2.2 ['a'] (by decide)
